import Mathlib

/-!
Verification of the DocuMerger repository: a shallow embedding of
`src/processor.py`, `src/github_api.py` and `src/utils.py` in Lean 4,
with theorems settling the specification's claims.

Text is modelled as `List Char` (`Str`); raw file bytes as `List (Fin 256)`.
Python's regular-expression substitutions are embedded as dedicated
left-to-right scanners that implement exactly the patterns appearing in the
source (the patterns involved have deterministic matching, noted at each
definition).
-/

namespace DocuMerger

/-- Text, modelled as a list of characters. -/
abbrev Str := List Char

/-- Convert a Lean string literal to our text model. -/
def str (s : String) : Str := s.data

/-- Python regex class `[a-zA-Z0-9]` (ASCII letters and digits). -/
def isAlnum (c : Char) : Bool := c.isAlpha || c.isDigit

/-- Python regex class `[0-9A-Z]` (digits and ASCII uppercase). -/
def isUpperDigit (c : Char) : Bool := c.isDigit || c.isUpper

/-- Python regex class `[0-9A-Za-z\-_]` (also `[a-zA-Z0-9_\-]`). -/
def isWordDash (c : Char) : Bool := c.isAlpha || c.isDigit || c = '-' || c = '_'

/-- ASCII whitespace, Python's `\s` on the inputs considered. -/
def isSpc (c : Char) : Bool :=
  c = ' ' || c = '\t' || c = '\n' || c = '\r' || c = '\x0b' || c = '\x0c'

/- ### `sanitize_content` step 1: the four `re.sub` key redactions
(src/processor.py lines 53-61). -/

/-- Scanner for `re.sub(r'sk-[a-zA-Z0-9]{20,}', '[REDACTED_API_KEY]', text)`:
left-to-right non-overlapping scan; at `sk-`, the greedy `{20,}` consumes the
maximal alphanumeric run and succeeds iff that run has length ≥ 20.  The fuel
argument is initialised to the input length; every step consumes at least one
character, so the fuel-exhausted branch is unreachable. -/
def subSkAux : Nat → Str → Str
  | _, [] => []
  | 0, l => l
  | fuel + 1, 's' :: 'k' :: '-' :: cs =>
      if 20 ≤ (cs.takeWhile isAlnum).length then
        str "[REDACTED_API_KEY]" ++ subSkAux fuel (cs.dropWhile isAlnum)
      else
        's' :: subSkAux fuel ('k' :: '-' :: cs)
  | fuel + 1, c :: cs => c :: subSkAux fuel cs

/-- `re.sub(r'sk-[a-zA-Z0-9]{20,}', '[REDACTED_API_KEY]', text)`. -/
def subSk (l : Str) : Str := subSkAux l.length l

/-- Scanner for `re.sub(r'AKIA[0-9A-Z]{16}', '[REDACTED_AWS_KEY]', text)`:
match `AKIA` followed by exactly 16 characters of the class. -/
def subAkiaAux : Nat → Str → Str
  | _, [] => []
  | 0, l => l
  | fuel + 1, 'A' :: 'K' :: 'I' :: 'A' :: cs =>
      if (cs.take 16).length = 16 && (cs.take 16).all isUpperDigit then
        str "[REDACTED_AWS_KEY]" ++ subAkiaAux fuel (cs.drop 16)
      else
        'A' :: subAkiaAux fuel ('K' :: 'I' :: 'A' :: cs)
  | fuel + 1, c :: cs => c :: subAkiaAux fuel cs

/-- `re.sub(r'AKIA[0-9A-Z]{16}', '[REDACTED_AWS_KEY]', text)`. -/
def subAkia (l : Str) : Str := subAkiaAux l.length l

/-- Scanner for `re.sub(r'AIza[0-9A-Za-z\-_]{35}', '[REDACTED_GOOGLE_KEY]',
text)`: match `AIza` followed by exactly 35 characters of the class. -/
def subAIzaAux : Nat → Str → Str
  | _, [] => []
  | 0, l => l
  | fuel + 1, 'A' :: 'I' :: 'z' :: 'a' :: cs =>
      if (cs.take 35).length = 35 && (cs.take 35).all isWordDash then
        str "[REDACTED_GOOGLE_KEY]" ++ subAIzaAux fuel (cs.drop 35)
      else
        'A' :: subAIzaAux fuel ('I' :: 'z' :: 'a' :: cs)
  | fuel + 1, c :: cs => c :: subAIzaAux fuel cs

/-- `re.sub(r'AIza[0-9A-Za-z\-_]{35}', '[REDACTED_GOOGLE_KEY]', text)`. -/
def subAIza (l : Str) : Str := subAIzaAux l.length l

/-- Case-insensitive ASCII letter comparison (for the `(?i)` pattern). -/
def ciEq (c target : Char) : Bool := c.toLower = target

/-- Attempt the pattern
`(?i)(api[_-]?key\s*[:=]\s*["\x27]?)([a-zA-Z0-9_\-]{20,})(["\x27]?)` at the
head of the input.  Returns `some (replacedText, rest)` on a match, where
`replacedText` is `\1[REDACTED_KEY]\3` and `rest` is the input after the whole
match.  All quantifiers here match deterministically: `[_-]?` is followed by
`k` (not in the class), `\s*` is followed by non-space alternatives, the
optional opening quote is not in the value class, and `{20,}` is greedy with
every class character accepted. -/
def matchApiKey (l : Str) : Option (Str × Str) :=
  match l with
  | a :: p :: i :: rest0 =>
    if ciEq a 'a' && ciEq p 'p' && ciEq i 'i' then
      -- optional [_-]
      let (opt, rest1) : Str × Str :=
        match rest0 with
        | c :: cs => if c = '_' || c = '-' then ([c], cs) else ([], rest0)
        | [] => ([], rest0)
      match rest1 with
      | k :: e :: y :: rest2 =>
        if ciEq k 'k' && ciEq e 'e' && ciEq y 'y' then
          let sp1 := rest2.takeWhile isSpc
          match rest2.dropWhile isSpc with
          | sep :: rest3 =>
            if sep = ':' || sep = '=' then
              let sp2 := rest3.takeWhile isSpc
              let rest4 := rest3.dropWhile isSpc
              let (q1, rest5) : Str × Str :=
                match rest4 with
                | c :: cs => if c = '"' || c = '\x27' then ([c], cs) else ([], rest4)
                | [] => ([], rest4)
              let run := rest5.takeWhile isWordDash
              if 20 ≤ run.length then
                let rest6 := rest5.dropWhile isWordDash
                let (q3, rest7) : Str × Str :=
                  match rest6 with
                  | c :: cs => if c = '"' || c = '\x27' then ([c], cs) else ([], rest6)
                  | [] => ([], rest6)
                let group1 := a :: p :: i :: opt ++ k :: e :: y :: sp1 ++ sep :: sp2 ++ q1
                some (group1 ++ str "[REDACTED_KEY]" ++ q3, rest7)
              else none
            else none
          | [] => none
        else none
      | _ => none
    else none
  | _ => none

/-- Left-to-right non-overlapping substitution for the generic api-key
pattern, continuing after each match.  The fuel argument is initialised to the
input length; a fired match always consumes at least the three characters
`api`, so one unit of fuel per input character suffices and the fuel-exhausted
branch is unreachable. -/
def subGenericAux : Nat → Str → Str
  | _, [] => []
  | 0, l => l
  | fuel + 1, c :: cs =>
    match matchApiKey (c :: cs) with
    | some (rep, rest) => rep ++ subGenericAux fuel rest
    | none => c :: subGenericAux fuel cs

/-- `re.sub(r'(?i)(api[_-]?key\s*[:=]\s*["\x27]?)([a-zA-Z0-9_\-]{20,})(["\x27]?)',
r'\1[REDACTED_KEY]\3', text)`. -/
def subGeneric (l : Str) : Str := subGenericAux l.length l

/- ### `sanitize_content` step 2: heuristic comment removal
(src/processor.py lines 63-98). -/

/-- Python `sub in s` (substring containment). -/
def containsSub (needle : Str) : Str → Bool
  | [] => needle.isPrefixOf []
  | c :: cs => needle.isPrefixOf (c :: cs) || containsSub needle cs

/-- Does `re.search(r'\s+#(?!.*://)', s)` match at position 0?  Since every
character of the backtrackable `\s+` run is whitespace and `#` is not, the
only candidate match takes the whole whitespace run followed by `#`; the
negative lookahead requires that `://` not occur after the `#`. -/
def spaceHashAt (s : Str) : Bool :=
  match s.dropWhile isSpc with
  | '#' :: rest => decide (s.takeWhile isSpc ≠ []) && !(containsSub (str "://") rest)
  | _ => false

/-- Index of the leftmost match of `\s+#(?!.*://)` (its `match.start()`). -/
def findSpaceHash : Str → Option Nat
  | [] => none
  | c :: cs =>
    if spaceHashAt (c :: cs) then some 0
    else (findSpaceHash cs).map (· + 1)

/-- Does `re.search(r'\s+//(?!.*:)', s)` match at position 0?  Analogous to
`spaceHashAt`: the run of whitespace must be followed by `//`, and no `:` may
occur after the `//`. -/
def spaceSlashAt (s : Str) : Bool :=
  match s.dropWhile isSpc with
  | '/' :: '/' :: rest => decide (s.takeWhile isSpc ≠ []) && !(rest.contains ':')
  | _ => false

/-- Index of the leftmost match of `\s+//(?!.*:)`. -/
def findSpaceSlash : Str → Option Nat
  | [] => none
  | c :: cs =>
    if spaceSlashAt (c :: cs) then some 0
    else (findSpaceSlash cs).map (· + 1)

/-- Python `s.count('//')` (non-overlapping, left to right). -/
def countSlashSlash : Str → Nat
  | x :: y :: rest =>
    if x = '/' && y = '/' then 1 + countSlashSlash rest
    else countSlashSlash (y :: rest)
  | _ => 0

/-- Python `s.count(' //')` (non-overlapping, left to right). -/
def countSpcSlashSlash : Str → Nat
  | x :: y :: z :: rest =>
    if x = ' ' && y = '/' && z = '/' then 1 + countSpcSlashSlash rest
    else countSpcSlashSlash (y :: z :: rest)
  | _ => 0

/-- Index of the first occurrence of `" //"`, for `s.split(' //', 1)`. -/
def findSpcSlashSlash : Str → Option Nat
  | x :: y :: z :: rest =>
    if x = ' ' && y = '/' && z = '/' then some 0
    else (findSpcSlashSlash (y :: z :: rest)).map (· + 1)
  | _ => none

/-- Python `str.rstrip()`: remove trailing whitespace. -/
def rstrip (s : Str) : Str := (s.reverse.dropWhile isSpc).reverse

/-- The per-line body of the `remove_comments` loop
(src/processor.py lines 69-97), before the final `rstrip`. -/
def cleanLine (line : Str) : Str :=
  if containsSub (str "http://") line || containsSub (str "https://") line then
    -- URL-bearing line: apply the two trailing-comment regexes in turn
    let c1 := match findSpaceHash line with
      | some i => line.take i
      | none => line
    match findSpaceSlash c1 with
    | some i => c1.take i
    | none => c1
  else
    -- Python-style `#` comment: cut at the first `#` when the quote count
    -- (double plus single) before it is even
    let c1 :=
      if line.contains '#' then
        let pre := line.takeWhile (· ≠ '#')
        if (pre.count '"' + pre.count '\x27') % 2 = 0 then pre else line
      else line
    -- JS-style `//` comment: cut at the first `" //"` when every `//`
    -- occurrence is preceded by a space
    if countSlashSlash c1 ≠ 0 && countSlashSlash c1 = countSpcSlashSlash c1 then
      match findSpcSlashSlash c1 with
      | some i => c1.take i
      | none => c1
    else c1

/-- Python `text.split('\n')`. -/
def splitNl : Str → List Str
  | [] => [[]]
  | c :: cs =>
    match splitNl cs with
    | [] => [[c]]  -- unreachable: splitNl never returns []
    | h :: t => if c = '\n' then [] :: h :: t else (c :: h) :: t

/-- Python `'\n'.join(lines)`. -/
def joinNl (lines : List Str) : Str := (lines.intersperse (str "\n")).flatten

/-- `DocumentProcessor.sanitize_content` (src/processor.py lines 48-100):
the four key redactions, then optional line-by-line comment removal with a
final `rstrip` per line. -/
def sanitize_content (text : Str) (remove_comments : Bool) : Str :=
  let t := subGeneric (subAIza (subAkia (subSk text)))
  if remove_comments then
    joinNl ((splitNl t).map (fun l => rstrip (cleanLine l)))
  else t

example : sanitize_content (str "key = sk-abcdefghijklmnopqrstuvwx  # https://example.com") false
    = str "key = [REDACTED_API_KEY]  # https://example.com" := by decide

/- ### Decoding file bytes (src/processor.py lines 114-135) -/

/-- UTF-8 continuation byte (`0x80..0xBF`). -/
def isCont (b : Fin 256) : Bool := 0x80 ≤ b.val && b.val ≤ 0xBF

/-- Strict UTF-8 decoding, as Python's `bytes.decode('utf-8')`: `none` exactly
when the byte sequence is not valid UTF-8 (overlong forms, surrogates and
out-of-range lead bytes rejected). -/
def utf8Decode? : List (Fin 256) → Option Str
  | [] => some []
  | b :: bs =>
    if b.val < 0x80 then
      (utf8Decode? bs).map (fun s => Char.ofNat b.val :: s)
    else if b.val < 0xC2 then none
    else if b.val ≤ 0xDF then
      match bs with
      | b1 :: bs1 =>
        if isCont b1 then
          (utf8Decode? bs1).map
            (fun s => Char.ofNat ((b.val - 0xC0) * 0x40 + (b1.val - 0x80)) :: s)
        else none
      | [] => none
    else if b.val ≤ 0xEF then
      match bs with
      | b1 :: b2 :: bs2 =>
        let lo1 := if b.val = 0xE0 then 0xA0 else 0x80
        let hi1 := if b.val = 0xED then 0x9F else 0xBF
        if lo1 ≤ b1.val && b1.val ≤ hi1 && isCont b2 then
          (utf8Decode? bs2).map
            (fun s => Char.ofNat
              ((b.val - 0xE0) * 0x1000 + (b1.val - 0x80) * 0x40 + (b2.val - 0x80)) :: s)
        else none
      | _ => none
    else if b.val ≤ 0xF4 then
      match bs with
      | b1 :: b2 :: b3 :: bs3 =>
        let lo1 := if b.val = 0xF0 then 0x90 else 0x80
        let hi1 := if b.val = 0xF4 then 0x8F else 0xBF
        if lo1 ≤ b1.val && b1.val ≤ hi1 && isCont b2 && isCont b3 then
          (utf8Decode? bs3).map
            (fun s => Char.ofNat
              ((b.val - 0xF0) * 0x40000 + (b1.val - 0x80) * 0x1000 +
                (b2.val - 0x80) * 0x40 + (b3.val - 0x80)) :: s)
        else none
      | _ => none
    else none

/-- Python `bytes.decode('latin-1', errors='replace')`: each byte maps to the
code point of the same value; no byte can fail, so the `replace` handler is
never exercised and the decode is total. -/
def latin1Decode (bs : List (Fin 256)) : Str := bs.map (fun b => Char.ofNat b.val)

/-- The decode logic of `merge_as_text` (src/processor.py lines 130-133):
UTF-8 first, falling back to Latin-1 on `UnicodeDecodeError`. -/
def decodeContent (bs : List (Fin 256)) : Str :=
  match utf8Decode? bs with
  | some s => s
  | none => latin1Decode bs

/- ### `merge_as_text` (src/processor.py lines 102-156) -/

/-- A queued file: a named byte buffer (the `BytesIO` objects the merge lanes
consume; `file.seek(0)` followed by `file.read()` yields `content`). -/
structure QFile where
  name : Str
  content : List (Fin 256)

/-- The characters after the last `/` of a path. -/
def afterLastSlash (p : Str) : Str := (p.reverse.takeWhile (· ≠ '/')).reverse

/-- `os.path.splitext(p)[1]`: the extension including its dot, empty when the
final component has no dot or consists only of leading dots (CPython's
`posixpath.splitext`). -/
def extOf (p : Str) : Str :=
  let base := afterLastSlash p
  let revBase := base.reverse
  let revExtCand := revBase.takeWhile (· ≠ '.')
  if revExtCand.length = revBase.length then []
  else
    let pre := base.take (revBase.length - revExtCand.length - 1)
    if pre.all (· = '.') then [] else '.' :: revExtCand.reverse

/-- Python `str.lower()` (ASCII inputs). -/
def lowerStr (s : Str) : Str := s.map Char.toLower

/-- The `code_extensions` table of `merge_as_text`
(src/processor.py lines 139-144). -/
def codeExtensions : List (Str × Str) :=
  [ (str ".py", str "python"), (str ".js", str "javascript"),
    (str ".tsx", str "typescript"), (str ".jsx", str "javascript"),
    (str ".ts", str "typescript"), (str ".html", str "html"),
    (str ".css", str "css"), (str ".json", str "json"),
    (str ".sql", str "sql"), (str ".java", str "java"),
    (str ".c", str "c"), (str ".cpp", str "cpp"),
    (str ".sh", str "bash"), (str ".yml", str "yaml"),
    (str ".yaml", str "yaml") ]

/-- The per-file separator block of `merge_as_text`
(src/processor.py line 112). -/
def sepBlock (filename : Str) : Str :=
  str "\n\n========================================\n# File: " ++ filename ++
    str "\n========================================\n\n"

/-- Smart Markdown wrapping (src/processor.py lines 146-148): wrap in a fenced
code block when the lowercased extension is a known code extension. -/
def fenceWrap (ext : Str) (content : Str) : Str :=
  match codeExtensions.lookup ext with
  | some lang => str "```" ++ lang ++ str "\n" ++ content ++ str "\n```"
  | none => content

/-- One iteration of the `merge_as_text` loop: decode, fence, optionally
sanitize, and prepend the separator.  The outer `try`/`except` of the source
cannot fire in this model (reading a byte buffer does not fail, and the decode
fallback is total), so the `[Error reading file: ...]` branch is not taken. -/
def processFile (sanitize remove_comments : Bool) (f : QFile) : Str :=
  let ext := lowerStr (extOf f.name)
  let content := decodeContent f.content
  let content := fenceWrap ext content
  let content := if sanitize then sanitize_content content remove_comments else content
  sepBlock f.name ++ content

/-- The accumulating loop of `merge_as_text` (`master_string += separator +
content`). -/
def mergeLoop (sanitize remove_comments : Bool) (acc : Str) : List QFile → Str
  | [] => acc
  | f :: fs => mergeLoop sanitize remove_comments (acc ++ processFile sanitize remove_comments f) fs

/-- `DocumentProcessor.merge_as_text` (src/processor.py lines 102-156). -/
def merge_as_text (files : List QFile) (sanitize remove_comments : Bool) : Str :=
  mergeLoop sanitize remove_comments [] files

/- ### `merge_files` routing (src/processor.py lines 195-320) -/

/-- Python exceptions raised by `merge_files`. -/
inductive MergeError where
  | runtimeError (msg : Str)
  | valueError (msg : Str)
  deriving DecidableEq

/-- The payload of a successful merge.  The binary payloads are produced by
the external libraries `docxcompose` and `pypdf`; the router's observable
behaviour (which lane ran, success versus which exception) is what is
modelled, so the binary buffers are abstract tags. -/
inductive MergePayload where
  | text (s : Str)
  | docxStream
  | pdfStream
  deriving DecidableEq

/-- `DocumentProcessor.merge_files` (src/processor.py lines 195-320).
`conv` models the external LibreOffice conversion of one non-PDF file
(`convert_to_pdf`): `Except.error msg` is a raised conversion exception.
Notable source behaviour embedded faithfully: there is no empty-input check;
`all(...)` over an empty file list is `True`, so an empty DOCX request indexes
`file_list[0]` and the resulting `IndexError` is re-raised as
`RuntimeError("Error in Word Lane merge: list index out of range")`, while an
empty PDF request takes the fast lane and succeeds with an empty document. -/
def merge_files (conv : QFile → Except Str Unit) (files : List QFile)
    (output_format : Str) (sanitize remove_comments : Bool) :
    Except MergeError (MergePayload × Str) :=
  if output_format = str "TXT" then
    .ok (.text (merge_as_text files sanitize remove_comments), str "text/plain")
  else if output_format = str "DOCX" then
    if files.all (fun f => (str ".docx").isSuffixOf (lowerStr f.name)) then
      match files with
      | [] => .error (.runtimeError (str "Error in Word Lane merge: list index out of range"))
      | _ :: _ =>
        .ok (.docxStream,
          str "application/vnd.openxmlformats-officedocument.wordprocessingml.document")
    else
      .error (.valueError (str "DOCX output currently only supports .docx inputs. Please convert other files first or choose PDF output."))
  else if output_format = str "PDF" then
    if files.all (fun f => (str ".pdf").isSuffixOf (lowerStr f.name)) then
      .ok (.pdfStream, str "application/pdf")
    else
      -- Heavy lane: convert each non-PDF file in order; the first conversion
      -- failure aborts the merge with the re-raised RuntimeError.
      match heavyLane conv files with
      | .ok _ => .ok (.pdfStream, str "application/pdf")
      | .error e => .error e
  else
    .error (.valueError (str "Unsupported output format: " ++ output_format))
where
  /-- The heavy-lane conversion loop (src/processor.py lines 276-305). -/
  heavyLane (conv : QFile → Except Str Unit) : List QFile → Except MergeError Unit
    | [] => .ok ()
    | f :: fs =>
      if lowerStr (extOf f.name) = str ".pdf" then heavyLane conv fs
      else
        match conv f with
        | .ok _ => heavyLane conv fs
        | .error msg =>
          .error (.runtimeError (str "Failed to convert " ++ f.name ++ str ": " ++ msg))

/- ### Helper lemmas about `merge_as_text` -/

/-- The byte buffer holding the UTF-8 encoding of an ASCII Lean string. -/
def bytesOf (s : String) : List (Fin 256) :=
  s.data.map (fun c => ⟨c.toNat % 256, Nat.mod_lt _ (by decide)⟩)

/-- The block `merge_as_text` emits for one file, split off `processFile`:
the bit after the separator. -/
def fileBody (sanitize remove_comments : Bool) (f : QFile) : Str :=
  let content := fenceWrap (lowerStr (extOf f.name)) (decodeContent f.content)
  if sanitize then sanitize_content content remove_comments else content

theorem processFile_eq (s rc : Bool) (f : QFile) :
    processFile s rc f = sepBlock f.name ++ fileBody s rc f := rfl

theorem mergeLoop_eq (s rc : Bool) (acc : Str) (files : List QFile) :
    mergeLoop s rc acc files = acc ++ (files.map (processFile s rc)).flatten := by
  induction files generalizing acc with
  | nil => simp [mergeLoop]
  | cons f fs ih => simp [mergeLoop, ih]

theorem merge_as_text_eq (s rc : Bool) (files : List QFile) :
    merge_as_text files s rc = (files.map (processFile s rc)).flatten := by
  simp [merge_as_text, mergeLoop_eq]

/-- The decoded (pre-sanitization) content is inside any fence wrapping. -/
theorem infix_fenceWrap (ext c : Str) : c <:+: fenceWrap ext c := by
  unfold fenceWrap
  cases codeExtensions.lookup ext with
  | none => exact List.infix_refl c
  | some lang => exact ⟨str "```" ++ lang ++ str "\n", str "\n```", by simp⟩

theorem sepBlock_ne_nil (n : Str) : sepBlock n ≠ [] := by
  simp [sepBlock, str]

/-- Each file's full block is an infix of the merged text. -/
theorem block_infix_merge (s rc : Bool) {f : QFile} {files : List QFile}
    (hf : f ∈ files) :
    sepBlock f.name ++ fileBody s rc f <:+: merge_as_text files s rc := by
  rw [merge_as_text_eq, ← processFile_eq]
  exact List.infix_of_mem_flatten (List.mem_map_of_mem _ hf)

/- ### Claim theorems: C1, C2, C5 -/

set_option maxRecDepth 10000

/-- C1 (counterexample): on the spec scenario's inputs with `sanitize=False`
and `strip_comments=True`, `merge_as_text` leaves the trailing `# comment`
in place — comment stripping only runs inside the `if sanitize:` branch —
so the claimed output (comment removed) is wrong.  The full output is pinned
by the equality; the final conjunct exhibits the surviving comment. -/
theorem c1_counterexample_comment_survives_without_sanitize :
    merge_as_text
        [⟨str "a.py", bytesOf "import os  # comment"⟩,
         ⟨str "b.txt", bytesOf "hello"⟩] false true =
      str "\n\n========================================\n# File: a.py\n========================================\n\n```python\nimport os  # comment\n```\n\n========================================\n# File: b.txt\n========================================\n\nhello" ∧
    containsSub (str "import os  # comment")
      (merge_as_text
        [⟨str "a.py", bytesOf "import os  # comment"⟩,
         ⟨str "b.txt", bytesOf "hello"⟩] false true) = true := by
  constructor
  · decide
  · decide

/-- C1 (amended): the scenario holds once `sanitize=True` accompanies
`strip_comments=True` (in the code, comment removal is a sub-step of
sanitization): the `a.py` block becomes a fenced python code block containing
`import os` with the trailing comment removed, and `hello` appears outside
any fence. -/
theorem c1_amended_sanitize_and_strip_comments :
    merge_as_text
        [⟨str "a.py", bytesOf "import os  # comment"⟩,
         ⟨str "b.txt", bytesOf "hello"⟩] true true =
      str "\n\n========================================\n# File: a.py\n========================================\n\n```python\nimport os\n```\n\n========================================\n# File: b.txt\n========================================\n\nhello" ∧
    containsSub (str "```python\nimport os\n```")
      (merge_as_text
        [⟨str "a.py", bytesOf "import os  # comment"⟩,
         ⟨str "b.txt", bytesOf "hello"⟩] true true) = true ∧
    containsSub (str "# comment")
      (merge_as_text
        [⟨str "a.py", bytesOf "import os  # comment"⟩,
         ⟨str "b.txt", bytesOf "hello"⟩] true true) = false := by
  refine ⟨?_, ?_, ?_⟩ <;> decide

/-- C2 (counterexample): merging an empty file sequence as text does not fail
with any `EmptyInput` error — `merge_files` has no empty-input check and
returns an empty text payload successfully. -/
theorem c2_counterexample_empty_text_merge_succeeds :
    merge_files (fun _ => Except.ok ()) [] (str "TXT") false false =
      Except.ok (MergePayload.text [], str "text/plain") := by
  rfl

/-- C2 (amended): `merge_files` never raises an `EmptyInput`-style error for
an empty file sequence; instead, for every sanitize/strip setting and
conversion behaviour, the text lane succeeds with an empty payload, the PDF
request takes the fast lane (`all` of an empty list is true) and succeeds
with an empty document, and the DOCX request fails with the `RuntimeError`
re-raised from indexing `file_list[0]`, not an empty-input error. -/
theorem c2_amended_no_empty_input_check (conv : QFile → Except Str Unit)
    (s rc : Bool) :
    merge_files conv [] (str "TXT") s rc =
      Except.ok (MergePayload.text [], str "text/plain") ∧
    merge_files conv [] (str "PDF") s rc =
      Except.ok (MergePayload.pdfStream, str "application/pdf") ∧
    merge_files conv [] (str "DOCX") s rc =
      Except.error (MergeError.runtimeError
        (str "Error in Word Lane merge: list index out of range")) := by
  exact ⟨rfl, rfl, rfl⟩

/-- C5: on the line `key = sk-abcdefghijklmnopqrstuvwx  # https://example.com`
with sanitization on and comment stripping off, the `sk-` vendor token (24
alphanumerics, ≥ 20 required) is replaced by the `[REDACTED_API_KEY]` marker
and the URL in the trailing comment is untouched. -/
theorem c5_sanitize_redacts_key_preserves_url :
    sanitize_content
        (str "key = sk-abcdefghijklmnopqrstuvwx  # https://example.com") false =
      str "key = [REDACTED_API_KEY]  # https://example.com" ∧
    containsSub (str "https://example.com")
      (sanitize_content
        (str "key = sk-abcdefghijklmnopqrstuvwx  # https://example.com") false) = true ∧
    containsSub (str "sk-abcdefghijklmnopqrstuvwx")
      (sanitize_content
        (str "key = sk-abcdefghijklmnopqrstuvwx  # https://example.com") false) = false := by
  refine ⟨?_, ?_, ?_⟩ <;> decide

/- ### Claim theorems: C3, C4 -/

/-- C3: for every non-empty file sequence, `merge_as_text` (with sanitization
off, as in the default call) is the in-order concatenation of per-file blocks,
each a fixed-format separator carrying the file's name followed by that file's
(possibly fence-wrapped) decoded content; every separator-plus-content block
is an infix of the result with the decoded content inside it, and the result
is non-empty. -/
theorem c3_text_merge_block_structure (files : List QFile) (rc : Bool)
    (hne : files ≠ []) :
    merge_as_text files false rc =
      (files.map (fun f => sepBlock f.name ++ fileBody false rc f)).flatten ∧
    (∀ f ∈ files,
      sepBlock f.name ++ fileBody false rc f <:+: merge_as_text files false rc ∧
      decodeContent f.content <:+: fileBody false rc f) ∧
    merge_as_text files false rc ≠ [] := by
  refine ⟨?_, ?_, ?_⟩
  · rw [merge_as_text_eq]
    congr 1
  · intro f hf
    refine ⟨block_infix_merge false rc hf, ?_⟩
    simp only [fileBody]
    exact infix_fenceWrap _ _
  · match files, hne with
    | f :: fs, _ =>
      rw [merge_as_text_eq]
      simp only [List.map_cons, List.flatten_cons, processFile_eq]
      intro h
      rw [List.append_assoc, List.append_eq_nil] at h
      exact sepBlock_ne_nil f.name h.1

/-- Witness for C3 at a concrete one-file queue. -/
theorem c3_text_merge_block_structure_witness :
    merge_as_text [⟨str "a.txt", bytesOf "hi"⟩] false false ≠ [] :=
  (c3_text_merge_block_structure [⟨str "a.txt", bytesOf "hi"⟩] false
    (List.cons_ne_nil _ _)).2.2

/-- C4: the text merge never aborts on undecodable bytes: whenever a queued
file's bytes are not valid UTF-8, its content is decoded via the total
Latin-1 fallback and the merged output of the whole batch still contains that
fallback decoding — the merge succeeds for every byte content. -/
theorem c4_bad_utf8_falls_back_to_latin1 (files : List QFile) (rc : Bool)
    (f : QFile) (hf : f ∈ files) (hbad : utf8Decode? f.content = none) :
    decodeContent f.content = latin1Decode f.content ∧
    latin1Decode f.content <:+: merge_as_text files false rc := by
  have h1 : decodeContent f.content = latin1Decode f.content := by
    unfold decodeContent
    rw [hbad]
  refine ⟨h1, ?_⟩
  have h2 : decodeContent f.content <:+: fileBody false rc f := by
    simp only [fileBody]
    exact infix_fenceWrap _ _
  rw [h1] at h2
  exact h2.trans ((List.suffix_append _ _).isInfix.trans (block_infix_merge false rc hf))

/-- Witness for C4 at a one-file queue holding the invalid UTF-8 byte 0xFF. -/
theorem c4_bad_utf8_falls_back_to_latin1_witness :
    decodeContent [(255 : Fin 256)] = latin1Decode [(255 : Fin 256)] ∧
    latin1Decode [(255 : Fin 256)] <:+:
      merge_as_text [⟨str "x.bin", [(255 : Fin 256)]⟩] false false :=
  c4_bad_utf8_falls_back_to_latin1 [⟨str "x.bin", [(255 : Fin 256)]⟩] false
    ⟨str "x.bin", [(255 : Fin 256)]⟩ (List.mem_singleton_self _) (by decide)

/- ### `apply_tree_filters` (src/github_api.py lines 407-502) -/

/-- Python `s.split(sep)` for a one-character separator: splitting the empty
string yields `[""]`, and separators at the ends yield empty parts. -/
def splitSep (sep : Char) : Str → List Str
  | [] => [[]]
  | c :: cs =>
    match splitSep sep cs with
    | [] => [[c]]  -- unreachable: splitSep never returns []
    | h :: t => if c = sep then [] :: h :: t else (c :: h) :: t

/-- A flat-tree item as consumed by `apply_tree_filters` (the GitHub Trees
API dicts: `path`, `type` are the fields the filter reads). -/
structure TEntry where
  path : Str
  type : Str
  size : Nat
  sha : Str
  deriving DecidableEq

/-- The characters after the last `.` (Python `filename.rsplit('.', 1)[-1]`
when a dot is present). -/
def afterLastDot (s : Str) : Str := (s.reverse.takeWhile (· ≠ '.')).reverse

/-- `is_likely_file` (src/github_api.py lines 476-502). -/
def is_likely_file (path : Str) : Bool :=
  let filename := (splitSep '/' path).getLast?.getD []
  let knownFiles : List Str :=
    [ str "Dockerfile", str "Makefile", str "LICENSE", str "README",
      str "CHANGELOG", str "Procfile", str "Gemfile", str "Rakefile",
      str "Vagrantfile", str "Brewfile", str ".gitignore",
      str ".gitattributes", str ".dockerignore", str ".editorconfig",
      str ".env", str ".env.example", str ".env.local", str "Pipfile",
      str "Podfile" ]
  if knownFiles.contains filename then true
  else if filename.contains '.' then true
  else if filename.headD ' ' = '.' then true
  else false

/-- The per-item keep decision of the `apply_tree_filters` loop
(src/github_api.py lines 434-471); the extension sets are already
lowercased by the caller, mirroring lines 430-431. -/
def keepEntry (exclude_dirs include_extensions exclude_extensions
    custom_exclude_patterns : List Str) (item : TEntry) : Bool :=
  let path := item.path
  let path_parts := splitSep '/' path
  if path_parts.any (fun part => exclude_dirs.contains part) then false
  else if custom_exclude_patterns.any (fun pat => containsSub pat path) then false
  else if item.type = str "blob" then
    let filename := path_parts.getLast?.getD []
    let ext : Str :=
      if filename.contains '.' then '.' :: lowerStr (afterLastDot filename) else []
    if include_extensions ≠ [] &&
        (if ext ≠ [] then !include_extensions.contains ext
         else !is_likely_file path) then false
    else if ext ≠ [] && exclude_extensions.contains ext then false
    else true
  else true

/-- `apply_tree_filters` (src/github_api.py lines 407-473): the
`for`/`continue`/`append` loop, with the extension arguments lowercased at
entry. -/
def apply_tree_filters (tree : List TEntry) (exclude_dirs include_extensions
    exclude_extensions custom_exclude_patterns : List Str) : List TEntry :=
  let ie := include_extensions.map lowerStr
  let ee := exclude_extensions.map lowerStr
  loop ie ee tree
where
  loop (ie ee : List Str) : List TEntry → List TEntry
    | [] => []
    | item :: rest =>
      if keepEntry exclude_dirs ie ee custom_exclude_patterns item then
        item :: loop ie ee rest
      else loop ie ee rest

theorem apply_tree_filters_eq_filter (tree : List TEntry)
    (ed ie ee cp : List Str) :
    apply_tree_filters tree ed ie ee cp =
      tree.filter (keepEntry ed (ie.map lowerStr) (ee.map lowerStr) cp) := by
  show apply_tree_filters.loop ed cp (ie.map lowerStr) (ee.map lowerStr) tree = _
  induction tree with
  | nil => rfl
  | cons item rest ih =>
    simp only [apply_tree_filters.loop, List.filter_cons, ih]

/-- C6: `apply_tree_filters` is idempotent — filtering its own output with
the same criteria returns it unchanged — and it is an order-preserving pure
function: its output is a sublist (subsequence) of its input. -/
theorem c6_apply_tree_filters_idempotent_order_preserving
    (tree : List TEntry) (ed ie ee cp : List Str) :
    apply_tree_filters (apply_tree_filters tree ed ie ee cp) ed ie ee cp =
      apply_tree_filters tree ed ie ee cp ∧
    (apply_tree_filters tree ed ie ee cp).Sublist tree := by
  constructor
  · rw [apply_tree_filters_eq_filter, apply_tree_filters_eq_filter,
      List.filter_filter]
    congr 1
    funext item
    exact Bool.and_self _
  · rw [apply_tree_filters_eq_filter]
    exact List.filter_sublist tree

/- ### `sanitize_filename` (src/utils.py lines 122-151) -/

/-- The character class of `re.sub(r'[<>:"|?*\x00-\x1f]', '_', filename)`. -/
def isInvalidFilenameChar (c : Char) : Bool :=
  c = '<' || c = '>' || c = ':' || c = '"' || c = '|' || c = '?' || c = '*' ||
    c.toNat ≤ 0x1f

/-- The character class of Python `strip('. ')`. -/
def isDotSpace (c : Char) : Bool := c = '.' || c = ' '

/-- Python `strip('. ')`: drop the characters of the class from both ends. -/
def stripDotSpace (s : Str) : Str :=
  List.rdropWhile isDotSpace (s.dropWhile isDotSpace)

/-- Python slicing `l[:n]` for a possibly negative `n`. -/
def pySliceTake (n : Int) (l : Str) : Str :=
  if n < 0 then l.take (l.length - n.natAbs) else l.take n.toNat

/-- `sanitize_filename` up to and including the `strip('. ')` step
(src/utils.py lines 132-139): drop path components, replace invalid
characters by `_`, strip leading/trailing dots and spaces. -/
def sfStripped (filename0 : Str) : Str :=
  let fn1 := (splitSep '/' filename0).getLast?.getD []
  let fn2 := (splitSep '\\' fn1).getLast?.getD []
  let fn3 := fn2.map (fun c => if isInvalidFilenameChar c then '_' else c)
  stripDotSpace fn3

/-- `sanitize_filename` after the empty-name fallback
(src/utils.py lines 141-143). -/
def sfPreTruncate (filename0 : Str) : Str :=
  let t := sfStripped filename0
  if t = [] then str "unnamed_file" else t

/-- `sanitize_filename` (src/utils.py lines 122-151), including the
length-255 truncation: `name, ext = filename.rsplit('.', 1)`;
`max_name_len = 255 - len(ext) - 1 if ext else 255` (an `int` that can go
negative, hence the Python-slice model); `filename = name[:max_name_len] +
('.' + ext if ext else '')`. -/
def sanitize_filename (filename0 : Str) : Str :=
  let fn := sfPreTruncate filename0
  if 255 < fn.length then
    if fn.contains '.' then
      let ext := afterLastDot fn
      let name := fn.take (fn.length - ext.length - 1)
      if ext ≠ [] then
        pySliceTake ((255 : Int) - ext.length - 1) name ++ '.' :: ext
      else
        pySliceTake 255 name
    else fn.take 255
  else fn

/- Helper lemmas for C10. -/

theorem splitSep_ne_nil (sep : Char) (s : Str) : splitSep sep s ≠ [] := by
  cases s with
  | nil => simp [splitSep]
  | cons c cs =>
    simp only [splitSep]
    match splitSep sep cs with
    | [] => simp
    | h :: t =>
      by_cases hc : c = sep <;> simp [hc]

theorem splitSep_parts (sep : Char) (s : Str) :
    ∀ part ∈ splitSep sep s, sep ∉ part ∧ part ⊆ s := by
  induction s with
  | nil =>
    intro part hp
    simp [splitSep] at hp
    simp [hp]
  | cons c cs ih =>
    intro part hp
    simp only [splitSep] at hp
    match hr : splitSep sep cs with
    | [] => exact absurd hr (splitSep_ne_nil sep cs)
    | h :: t =>
      rw [hr] at hp
      dsimp only at hp
      by_cases hc : c = sep
      · rw [if_pos hc] at hp
        rcases List.mem_cons.mp hp with hp | hp
        · simp [hp]
        · have := ih part (hr ▸ hp)
          exact ⟨this.1, List.Subset.trans this.2 (List.subset_cons_self c cs)⟩
      · rw [if_neg hc] at hp
        rcases List.mem_cons.mp hp with hp | hp
        · subst hp
          have hh := ih h (hr ▸ List.mem_cons_self h t)
          constructor
          · intro hmem
            rcases List.mem_cons.mp hmem with h1 | h1
            · exact hc h1.symm
            · exact hh.1 h1
          · intro x hx
            rcases List.mem_cons.mp hx with h1 | h1
            · exact h1 ▸ List.mem_cons_self c cs
            · exact List.mem_cons_of_mem c (hh.2 h1)
        · have := ih part (hr ▸ List.mem_cons_of_mem h hp)
          exact ⟨this.1, List.Subset.trans this.2 (List.subset_cons_self c cs)⟩

/-- Characters of the last part of a split are characters of the input that
are not the separator. -/
theorem getLast_splitSep_subset (sep : Char) (s : Str) :
    sep ∉ (splitSep sep s).getLast?.getD [] ∧
      (splitSep sep s).getLast?.getD [] ⊆ s := by
  have hne := splitSep_ne_nil sep s
  have hmem : (splitSep sep s).getLast?.getD [] ∈ splitSep sep s := by
    rw [List.getLast?_eq_getLast _ hne]
    exact List.getLast_mem hne
  exact splitSep_parts sep s _ hmem

theorem stripDotSpace_subset (s : Str) : stripDotSpace s ⊆ s :=
  List.Subset.trans (List.rdropWhile_prefix _ _).sublist.subset
    (List.dropWhile_suffix _).sublist.subset

theorem sfStripped_chars (s : Str) :
    ∀ c ∈ sfStripped s,
      isInvalidFilenameChar c = false ∧ c ≠ '/' ∧ c ≠ '\\' := by
  intro c hc
  have h2 := stripDotSpace_subset _ hc
  rcases List.mem_map.mp h2 with ⟨c0, hc0, hrep⟩
  by_cases hi : isInvalidFilenameChar c0
  · rw [hi, if_pos rfl] at hrep
    subst hrep
    refine ⟨by decide, by decide, by decide⟩
  · rw [if_neg hi] at hrep
    subst hrep
    have hfn2 := getLast_splitSep_subset '\\'
      ((splitSep '/' s).getLast?.getD [])
    have hfn1 := getLast_splitSep_subset '/' s
    refine ⟨by simpa using hi, ?_, ?_⟩
    · intro heq
      exact hfn1.1 (hfn2.2 (heq ▸ hc0))
    · intro heq
      exact hfn2.1 (heq ▸ hc0)

theorem dropWhile_head?_false {p : Char → Bool} :
    ∀ {l : Str} {c : Char}, (l.dropWhile p).head? = some c → p c = false := by
  intro l
  induction l with
  | nil => intro c h; simp [List.dropWhile] at h
  | cons a as ih =>
    intro c h
    rw [List.dropWhile_cons] at h
    by_cases hp : p a
    · rw [if_pos hp] at h
      exact ih h
    · rw [if_neg hp] at h
      simp at h
      subst h
      simpa using hp

theorem stripDotSpace_head?_ok (l : Str) :
    (stripDotSpace l).head?.all (fun c => !isDotSpace c) = true := by
  rw [stripDotSpace]
  rcases hres : List.rdropWhile isDotSpace (l.dropWhile isDotSpace) with _ | ⟨c, rs⟩
  · rfl
  · rcases List.rdropWhile_prefix isDotSpace (l.dropWhile isDotSpace) with ⟨r', hr⟩
    rw [hres] at hr
    have hh : (l.dropWhile isDotSpace).head? = some c := by
      rw [← hr]
      rfl
    simp [dropWhile_head?_false hh]

theorem stripDotSpace_getLast?_ok (l : Str) :
    (stripDotSpace l).getLast?.all (fun c => !isDotSpace c) = true := by
  rw [stripDotSpace, List.rdropWhile, List.getLast?_reverse]
  rcases hh : ((l.dropWhile isDotSpace).reverse.dropWhile isDotSpace).head? with _ | c
  · rfl
  · simp [dropWhile_head?_false hh]

theorem pySliceTake_subset (n : Int) (l : Str) : pySliceTake n l ⊆ l := by
  rw [pySliceTake]
  by_cases h : n < 0
  · rw [if_pos h]; exact List.take_subset _ _
  · rw [if_neg h]; exact List.take_subset _ _

theorem afterLastDot_subset (l : Str) : afterLastDot l ⊆ l := by
  intro c hc
  rw [afterLastDot, List.mem_reverse] at hc
  exact List.mem_reverse.mp ((List.takeWhile_prefix _).sublist.subset hc)

theorem sfPreTruncate_chars (s : Str) :
    ∀ c ∈ sfPreTruncate s,
      isInvalidFilenameChar c = false ∧ c ≠ '/' ∧ c ≠ '\\' := by
  intro c hc
  rw [sfPreTruncate] at hc
  by_cases h : sfStripped s = []
  · rw [if_pos h] at hc
    have hall : ∀ c ∈ str "unnamed_file",
        isInvalidFilenameChar c = false ∧ c ≠ '/' ∧ c ≠ '\\' := by decide
    exact hall c hc
  · rw [if_neg h] at hc
    exact sfStripped_chars s c hc

theorem sfPreTruncate_ne_nil (s : Str) : sfPreTruncate s ≠ [] := by
  rw [sfPreTruncate]
  by_cases h : sfStripped s = []
  · rw [if_pos h]; decide
  · rw [if_neg h]; exact h

/-- C10 (counterexample): for the 257-character input `a.` followed by 255
`b`s, the cleaned name exceeds 255 characters, `max_name_len = 255 -
len(ext) - 1` is negative, the negative Python slice empties the stem, and
the result starts with a dot — contradicting the claimed "no leading dots". -/
theorem c10_counterexample_truncation_leading_dot :
    sanitize_filename (str "a." ++ List.replicate 255 'b') =
      '.' :: List.replicate 255 'b' ∧
    (sanitize_filename (str "a." ++ List.replicate 255 'b')).head? = some '.' := by
  constructor <;> decide

/-- C10 (amended): `sanitize_filename` always returns a non-empty name
containing no path separator and no invalid character; an input reducing to
the empty cleaned name yields `unnamed_file`; and provided the cleaned name
is at most 255 characters (so the length truncation does not fire), the
result is exactly the cleaned name and has no leading or trailing dots or
spaces.  (Truncation of longer names can reintroduce a leading dot, as the
counterexample shows.) -/
theorem c10_sanitize_filename_properties (s : Str) :
    sanitize_filename s ≠ [] ∧
    (∀ c ∈ sanitize_filename s,
      isInvalidFilenameChar c = false ∧ c ≠ '/' ∧ c ≠ '\\') ∧
    (sfStripped s = [] → sanitize_filename s = str "unnamed_file") ∧
    ((sfPreTruncate s).length ≤ 255 →
      sanitize_filename s = sfPreTruncate s ∧
      (sanitize_filename s).head?.all (fun c => !isDotSpace c) = true ∧
      (sanitize_filename s).getLast?.all (fun c => !isDotSpace c) = true) := by
  refine ⟨?_, ?_, ?_, ?_⟩
  · rw [sanitize_filename]
    by_cases hlen : 255 < (sfPreTruncate s).length
    · rw [if_pos hlen]
      by_cases hdot : (sfPreTruncate s).contains '.'
      · rw [if_pos hdot]
        by_cases hext : afterLastDot (sfPreTruncate s) ≠ []
        · rw [if_pos hext]
          simp
        · rw [if_neg hext]
          rw [pySliceTake]
          rw [if_neg (show ¬(255 : Int) < 0 by omega)]
          push_neg at hext
          rw [hext]
          intro hnil
          rcases List.take_eq_nil_iff.mp hnil with h0 | hname
          · simp at h0
          · rcases List.take_eq_nil_iff.mp hname with h1 | h2
            · simp only [List.length_nil] at h1
              omega
            · exact sfPreTruncate_ne_nil s h2
      · rw [if_neg hdot]
        intro hnil
        rcases List.take_eq_nil_iff.mp hnil with h0 | h1
        · simp at h0
        · exact sfPreTruncate_ne_nil s h1
    · rw [if_neg hlen]
      exact sfPreTruncate_ne_nil s
  · intro c hc
    rw [sanitize_filename] at hc
    by_cases hlen : 255 < (sfPreTruncate s).length
    · rw [if_pos hlen] at hc
      by_cases hdot : (sfPreTruncate s).contains '.'
      · rw [if_pos hdot] at hc
        by_cases hext : afterLastDot (sfPreTruncate s) ≠ []
        · rw [if_pos hext] at hc
          rcases List.mem_append.mp hc with hc | hc
          · exact sfPreTruncate_chars s c
              (List.take_subset _ _ (pySliceTake_subset _ _ hc))
          · rcases List.mem_cons.mp hc with hc | hc
            · subst hc; exact ⟨by decide, by decide, by decide⟩
            · exact sfPreTruncate_chars s c (afterLastDot_subset _ hc)
        · rw [if_neg hext] at hc
          exact sfPreTruncate_chars s c
            (List.take_subset _ _ (pySliceTake_subset _ _ hc))
      · rw [if_neg hdot] at hc
        exact sfPreTruncate_chars s c (List.take_subset _ _ hc)
    · rw [if_neg hlen] at hc
      exact sfPreTruncate_chars s c hc
  · intro h
    have hpre : sfPreTruncate s = str "unnamed_file" := by
      rw [sfPreTruncate, if_pos h]
    rw [sanitize_filename, hpre]
    decide
  · intro hlen
    have hres : sanitize_filename s = sfPreTruncate s := by
      rw [sanitize_filename, if_neg (by omega)]
    refine ⟨hres, ?_, ?_⟩ <;> rw [hres, sfPreTruncate]
    · by_cases h : sfStripped s = []
      · rw [if_pos h]; decide
      · rw [if_neg h]
        exact stripDotSpace_head?_ok _
    · by_cases h : sfStripped s = []
      · rw [if_pos h]; decide
      · rw [if_neg h]
        exact stripDotSpace_getLast?_ok _

/-- Witness for C10 at a concrete input with an invalid character and a
trailing space. -/
theorem c10_sanitize_filename_properties_witness :
    sanitize_filename (str "a<b.txt ") ≠ [] ∧
    sanitize_filename (str "a<b.txt ") = sfPreTruncate (str "a<b.txt ") :=
  ⟨(c10_sanitize_filename_properties (str "a<b.txt ")).1,
   ((c10_sanitize_filename_properties (str "a<b.txt ")).2.2.2 (by decide)).1⟩

/- ### `compute_file_hash` (src/utils.py lines 154-184) -/

/-- A Python file-like object: a byte buffer with a read position.
`hasGetvalue` distinguishes `BytesIO`-style objects (whose `getvalue()`
returns the whole buffer without moving the position) from plain readable
streams; `hasTell` models the `hasattr(file_obj, 'tell')` check (true for
every object implementing the io protocol). -/
structure PyFile where
  content : List (Fin 256)
  pos : Nat
  hasGetvalue : Bool
  hasTell : Bool
  deriving DecidableEq

/-- `file_obj.seek(n)`. -/
def fileSeek (f : PyFile) (n : Nat) : PyFile := { f with pos := n }

/-- The `while chunk := file_obj.read(chunk_size)` loop of
`compute_file_hash`: returns the concatenation of all chunks read (the bytes
fed to the hasher) and the file state afterwards.  `read(n)` yields
`content[pos : pos+n]` and advances `pos` by the number of bytes returned;
the loop stops on an empty chunk. -/
def readAllFrom (f : PyFile) : List (Fin 256) × PyFile :=
  if h : (f.content.drop f.pos).take 8192 = [] then ([], f)
  else
    ((f.content.drop f.pos).take 8192 ++
      (readAllFrom
        { f with pos := f.pos + ((f.content.drop f.pos).take 8192).length }).1,
     (readAllFrom
        { f with pos := f.pos + ((f.content.drop f.pos).take 8192).length }).2)
  termination_by f.content.length - f.pos
  decreasing_by
    all_goals
      have h1 : f.content.drop f.pos ≠ [] := by
        intro hd
        apply h
        simp [hd]
      have h2 : f.pos < f.content.length := by
        by_contra hle
        exact h1 (List.drop_eq_nil_of_le (by omega))
      have h3 : 0 < ((f.content.drop f.pos).take 8192).length := List.length_pos.mpr h
      omega

/-- `compute_file_hash` (src/utils.py lines 154-184), parameterised by the
external `hashlib` hex digest `hashHex` over the bytes fed to the hasher:
save `tell()` (or 0 without `tell`), `seek(0)`, hash via `getvalue()` or the
chunked read loop, `seek` back, return the digest with the final state. -/
def compute_file_hash (hashHex : List (Fin 256) → Str) (f : PyFile) :
    Str × PyFile :=
  let original_pos := if f.hasTell then f.pos else 0
  let f1 := fileSeek f 0
  let dataAndFile :=
    if f.hasGetvalue then (f1.content, f1)
    else readAllFrom f1
  let f3 := fileSeek dataAndFile.2 original_pos
  (hashHex dataAndFile.1, f3)

theorem take_length_take {α : Type} (n : Nat) (l : List α) :
    l.take ((l.take n).length) = l.take n := by
  rw [List.length_take]
  rcases Nat.le_total n l.length with h | h
  · rw [Nat.min_eq_left h]
  · rw [Nat.min_eq_right h, List.take_length, List.take_of_length_le h]

theorem readAllFrom_eq (f : PyFile) (hpos : f.pos ≤ f.content.length) :
    readAllFrom f = (f.content.drop f.pos, { f with pos := f.content.length }) := by
  rw [readAllFrom.eq_def]
  by_cases h : (f.content.drop f.pos).take 8192 = []
  · rw [dif_pos h]
    rcases List.take_eq_nil_iff.mp h with h0 | h1
    · simp at h0
    · have hge : f.content.length ≤ f.pos := by
        by_contra hlt
        exact absurd h1 (by
          intro hd
          have hlen := congrArg List.length hd
          rw [List.length_drop] at hlen
          simp at hlen
          omega)
      have hpe : f.pos = f.content.length := by omega
      rw [h1, ← hpe]
  · rw [dif_neg h]
    have h3 : 0 < ((f.content.drop f.pos).take 8192).length := List.length_pos.mpr h
    have hdran : f.pos < f.content.length := by
      by_contra hle
      exact h (by rw [List.drop_eq_nil_of_le (by omega)]; rfl)
    have hrec := readAllFrom_eq
      { f with pos := f.pos + ((f.content.drop f.pos).take 8192).length }
      (by
        simp only [List.length_take, List.length_drop]
        omega)
    rw [hrec]
    simp only [Prod.mk.injEq]
    constructor
    · show (f.content.drop f.pos).take 8192 ++
        f.content.drop (f.pos + ((f.content.drop f.pos).take 8192).length) =
          f.content.drop f.pos
      have hdd : f.content.drop (f.pos + ((f.content.drop f.pos).take 8192).length)
          = (f.content.drop f.pos).drop ((f.content.drop f.pos).take 8192).length := by
        rw [List.drop_drop]
      rw [hdd]
      nth_rewrite 1 [← take_length_take 8192 (f.content.drop f.pos)]
      exact List.take_append_drop _ _
    · trivial
  termination_by f.content.length - f.pos
  decreasing_by
    simp only [List.length_take, List.length_drop] at *
    omega

/-- C9: `compute_file_hash` returns the hash of the entire content and is
frame-preserving: for any file-like object (providing `tell`, as every io
object does), the state after the call — in particular the read position —
equals the state before, even though the function seeks to the start
internally; the digest is over the whole buffer regardless of the starting
position, for both the `getvalue` and the chunked-read paths. -/
theorem c9_compute_file_hash_frame_preserving
    (hashHex : List (Fin 256) → Str) (f : PyFile) (htell : f.hasTell = true) :
    (compute_file_hash hashHex f).2 = f ∧
    (compute_file_hash hashHex f).1 = hashHex f.content := by
  unfold compute_file_hash
  dsimp only
  rw [htell]
  by_cases hg : f.hasGetvalue
  · rw [if_pos hg, if_pos rfl]
    exact ⟨rfl, rfl⟩
  · rw [if_neg hg, if_pos rfl]
    rw [readAllFrom_eq (fileSeek f 0) (by simp [fileSeek])]
    exact ⟨rfl, rfl⟩

/-- Witness for C9: a buffer `[1, 2]` positioned at 1, without `getvalue`. -/
theorem c9_compute_file_hash_frame_preserving_witness :
    (compute_file_hash (fun bs => str (toString bs.length))
        ⟨[(1 : Fin 256), 2], 1, false, true⟩).2 =
      ⟨[(1 : Fin 256), 2], 1, false, true⟩ ∧
    (compute_file_hash (fun bs => str (toString bs.length))
        ⟨[(1 : Fin 256), 2], 1, false, true⟩).1 =
      (fun bs => str (toString bs.length)) [(1 : Fin 256), 2] :=
  c9_compute_file_hash_frame_preserving (fun bs => str (toString bs.length))
    ⟨[(1 : Fin 256), 2], 1, false, true⟩ rfl

/- ### `fetch_multiple_files` (src/github_api.py lines 265-310) -/

/-- A fetched file object (`BytesIO` with a `name` attribute), as produced by
`fetch_raw_file`. -/
structure FetchedFile where
  name : Str
  content : List (Fin 256)
  deriving DecidableEq

/-- The outcome of one `fetch_raw_file` call: `(file_obj, error)`.  The
network behaviour is an oracle parameter; the loop of
`fetch_multiple_files` is what is embedded. -/
abbrev FetchOracle := Str → Option FetchedFile × Option Str

/-- `f"{pfx}_{original_name}"` when `pfx` is truthy. -/
def applyRepoPrefixName (pfx : Str) (fo : FetchedFile) : FetchedFile :=
  if pfx ≠ [] then { fo with name := pfx ++ '_' :: fo.name }
  else fo

/-- `error or f"Unknown error for {path}"` (Python `or`: `None` and the empty
string are falsy). -/
def fetchErrorMsg (path : Str) : Option Str → Str
  | some e => if e = [] then str "Unknown error for " ++ path else e
  | none => str "Unknown error for " ++ path

/-- The loop of `fetch_multiple_files` (src/github_api.py lines 294-308):
sequential fetches; the progress callback fires after every attempt with
`(i + 1, total)` (modelled as the ordered trace of its invocations);
successes are appended to `files` (prefixed when requested) and failures
to `errors`. -/
def fetchLoop (oracle : FetchOracle) (pfx : Str) (total : Nat) :
    Nat → List Str → List FetchedFile × List Str × List (Nat × Nat)
  | _, [] => ([], [], [])
  | i, path :: rest =>
    let r := fetchLoop oracle pfx total (i + 1) rest
    match (oracle path).1 with
    | some fo =>
      (applyRepoPrefixName pfx fo :: r.1, r.2.1, (i + 1, total) :: r.2.2)
    | none =>
      (r.1, fetchErrorMsg path (oracle path).2 :: r.2.1, (i + 1, total) :: r.2.2)

/-- `GitHubAPI.fetch_multiple_files` (src/github_api.py lines 265-310),
returning `(files, errors)` plus the trace of progress-callback calls. -/
def fetch_multiple_files (oracle : FetchOracle) (paths : List Str)
    (pfx : Str) : List FetchedFile × List Str × List (Nat × Nat) :=
  fetchLoop oracle pfx paths.length 0 paths

theorem fetchLoop_spec (oracle : FetchOracle) (pre : Str) (total : Nat) :
    ∀ (ps : List Str) (i : Nat),
      fetchLoop oracle pre total i ps =
        (ps.filterMap (fun p => (oracle p).1.map (applyRepoPrefixName pre)),
         ps.filterMap (fun p =>
            match (oracle p).1 with
            | some _ => none
            | none => some (fetchErrorMsg p (oracle p).2)),
         (List.range ps.length).map (fun j => (i + j + 1, total))) := by
  intro ps
  induction ps with
  | nil => intro i; rfl
  | cons path rest ih =>
    intro i
    rcases ho : (oracle path).1 with _ | fo <;>
      simp only [fetchLoop, ih (i + 1), List.filterMap_cons, ho,
        Option.map_none', Option.map_some', List.length_cons,
        List.range_succ_eq_map, List.map_cons, List.map_map,
        Prod.mk.injEq] <;>
      refine ⟨trivial, trivial, ?_⟩ <;>
      {
        refine List.cons_eq_cons.mpr ⟨by simp, ?_⟩
        refine List.map_congr_left ?_
        intro j hj
        simp only [Function.comp_apply, Prod.mk.injEq, and_true]
        omega
      }

theorem filterMap_success_error_length (oracle : FetchOracle) (pre : Str) :
    ∀ ps : List Str,
      (ps.filterMap (fun p => (oracle p).1.map (applyRepoPrefixName pre))).length +
      (ps.filterMap (fun p =>
          match (oracle p).1 with
          | some _ => none
          | none => some (fetchErrorMsg p (oracle p).2))).length = ps.length := by
  intro ps
  induction ps with
  | nil => rfl
  | cons p rest ih =>
    rcases ho : (oracle p).1 with _ | fo <;>
      simp only [List.filterMap_cons, ho, Option.map_none', Option.map_some',
        List.length_cons] <;>
      omega

/-- A concrete three-path fetch behaviour in which only the second path
fails (the spec's `BatchFileFetcher` scenario). -/
def demoOracle : FetchOracle := fun p =>
  if p = str "b" then (none, some (str "File not found: b"))
  else (some ⟨p, []⟩, none)

/-- C8: `fetch_multiple_files` fetches sequentially and returns the
successes in the input's relative order (the `filterMap` of the per-path
outcomes, prefixed when a repo prefix is given), one recorded error per
failed path (failures do not abort the rest), and the progress callback
fires exactly once per attempt, success or failure, with
`(completed, total)`; every path yields exactly one file or one error.  In
particular, for three paths of which only the second fails, it returns the
two successful files in order, exactly one error naming the failed path,
and progress calls `(1,3), (2,3), (3,3)`. -/
theorem c8_fetch_multiple_files_sequential_partial_success
    (oracle : FetchOracle) (paths : List Str) (pre : Str) :
    (fetch_multiple_files oracle paths pre =
      (paths.filterMap (fun p => (oracle p).1.map (applyRepoPrefixName pre)),
       paths.filterMap (fun p =>
          match (oracle p).1 with
          | some _ => none
          | none => some (fetchErrorMsg p (oracle p).2)),
       (List.range paths.length).map (fun j => (j + 1, paths.length)))) ∧
    (fetch_multiple_files oracle paths pre).1.length +
      (fetch_multiple_files oracle paths pre).2.1.length = paths.length ∧
    fetch_multiple_files demoOracle [str "a", str "b", str "c"] [] =
      ([⟨str "a", []⟩, ⟨str "c", []⟩],
       [str "File not found: b"],
       [(1, 3), (2, 3), (3, 3)]) := by
  have hspec := fetchLoop_spec oracle pre paths.length paths 0
  refine ⟨?_, ?_, ?_⟩
  · rw [fetch_multiple_files, hspec]
    simp only [Nat.zero_add]
  · rw [fetch_multiple_files, hspec]
    exact filterMap_success_error_length oracle pre paths
  · decide

/- ### `build_tree_structure` (src/github_api.py lines 139-198) -/

/-- A raw GitHub Trees API entry (`path`, `type`, `size`, `sha`). -/
structure RawEntry where
  path : Str
  type : Str
  size : Nat
  sha : Str
  deriving DecidableEq

/-- The items after the comprehension of lines 151-160: only `blob`/`tree`
entries, with `type` renamed to `file`/`folder`. -/
structure BItem where
  path : Str
  type : Str
  size : Nat
  sha : Str
  deriving DecidableEq

/-- Lines 151-160: filter to blobs and trees, map to the item dicts. -/
def toItems (flat : List RawEntry) : List BItem :=
  (flat.filter (fun e => e.type = str "blob" || e.type = str "tree")).map
    (fun e =>
      ⟨e.path, if e.type = str "tree" then str "folder" else str "file",
       e.size, e.sha⟩)

/-- Python string comparison (code-point lexicographic), the sort key of
line 167 (`items.sort(key=lambda x: x['path'])`). -/
def pathLe : Str → Str → Bool
  | [], _ => true
  | _ :: _, [] => false
  | a :: as, b :: bs => if a < b then true else if a = b then pathLe as bs else false

theorem pathLe_total : ∀ p q : Str, pathLe p q = true ∨ pathLe q p = true
  | [], _ => Or.inl rfl
  | _ :: _, [] => Or.inr rfl
  | a :: as, b :: bs => by
    rcases lt_trichotomy a b with h | h | h
    · left; simp [pathLe, h]
    · subst h
      rcases pathLe_total as bs with ih | ih
      · left; simp [pathLe, lt_irrefl, ih]
      · right; simp [pathLe, lt_irrefl, ih]
    · right; simp [pathLe, h]

theorem pathLe_trans : ∀ {p q r : Str},
    pathLe p q = true → pathLe q r = true → pathLe p r = true
  | [], _, _, _, _ => rfl
  | _ :: _, [], _, hab, _ => by simp [pathLe] at hab
  | _ :: _, _ :: _, [], _, hbc => by simp [pathLe] at hbc
  | x :: xs, y :: ys, z :: zs, hab, hbc => by
    simp only [pathLe] at hab hbc ⊢
    by_cases hxy : x < y
    · by_cases hyz : y < z
      · simp [lt_trans hxy hyz]
      · rw [if_neg hyz] at hbc
        by_cases hyz2 : y = z
        · subst hyz2; simp [hxy]
        · rw [if_neg hyz2] at hbc; exact absurd hbc (by simp)
    · rw [if_neg hxy] at hab
      by_cases hxy2 : x = y
      · subst hxy2
        rw [if_pos rfl] at hab
        by_cases hxz : x < z
        · simp [hxz]
        · rw [if_neg hxz] at hbc ⊢
          by_cases hxz2 : x = z
          · rw [if_pos hxz2] at hbc ⊢
            exact pathLe_trans hab hbc
          · rw [if_neg hxz2] at hbc; exact absurd hbc (by simp)
      · rw [if_neg hxy2] at hab; exact absurd hab (by simp)

/-- A path is never `≤` one of its proper prefixes. -/
theorem pathLe_append_cons_false : ∀ (p : Str) (c : Char) (q : Str),
    pathLe (p ++ c :: q) p = false
  | [], _, _ => rfl
  | x :: xs, c, q => by
    simp only [List.cons_append, pathLe, lt_irrefl, if_neg, if_pos rfl]
    simp [pathLe_append_cons_false xs c q]

/-- The sort order on items: by `path` (Python `sort` key). -/
def itemLe (a b : BItem) : Prop := pathLe a.path b.path = true

instance : DecidableRel itemLe := fun a b =>
  inferInstanceAs (Decidable (pathLe a.path b.path = true))

instance : IsTotal BItem itemLe :=
  ⟨fun a b => pathLe_total a.path b.path⟩

instance : IsTrans BItem itemLe :=
  ⟨fun _ _ _ hab hbc => pathLe_trans hab hbc⟩

/-- Python `'/'.join(parts)`. -/
def joinSlash : List Str → Str
  | [] => []
  | [x] => x
  | x :: y :: rest => x ++ '/' :: joinSlash (y :: rest)

/-- `'/'.join(parts[:-1])` for `parts = path.split('/')`. -/
def parentPathOf (path : Str) : Str := joinSlash ((splitSep '/' path).dropLast)

/-- `parts[-1]`, the node label. -/
def labelOf (path : Str) : Str := (splitSep '/' path).getLast?.getD []

theorem joinSlash_splitSep : ∀ p : Str, joinSlash (splitSep '/' p) = p := by
  intro p
  induction p with
  | nil => rfl
  | cons c cs ih =>
    simp only [splitSep]
    match hr : splitSep '/' cs with
    | [] => exact absurd hr (splitSep_ne_nil '/' cs)
    | h :: t =>
      rw [hr] at ih
      dsimp only
      by_cases hc : c = '/'
      · subst hc
        rw [if_pos rfl]
        show '/' :: joinSlash (h :: t) = '/' :: cs
        rw [ih]
      · rw [if_neg hc]
        match t with
        | [] =>
          show c :: h = c :: cs
          simpa [joinSlash] using ih
        | t1 :: ts =>
          show (c :: h) ++ '/' :: joinSlash (t1 :: ts) = c :: cs
          rw [List.cons_append]
          have : h ++ '/' :: joinSlash (t1 :: ts) = cs := ih
          rw [this]

theorem joinSlash_append_singleton :
    ∀ (xs : List Str) (y : Str), xs ≠ [] →
      joinSlash (xs ++ [y]) = joinSlash xs ++ '/' :: y
  | [], _, h => absurd rfl h
  | [x], y, _ => rfl
  | x :: x2 :: rest, y, _ => by
    show x ++ '/' :: joinSlash ((x2 :: rest) ++ [y]) =
      (x ++ '/' :: joinSlash (x2 :: rest)) ++ '/' :: y
    rw [joinSlash_append_singleton (x2 :: rest) y (List.cons_ne_nil _ _)]
    simp

/-- A multi-segment path is its parent path, a slash, and its label. -/
theorem path_eq_parent_slash_label {p : Str}
    (hm : (splitSep '/' p).length ≠ 1) :
    p = parentPathOf p ++ '/' :: labelOf p := by
  have hne := splitSep_ne_nil '/' p
  have hsplit := List.dropLast_append_getLast hne
  have hlen : (splitSep '/' p).dropLast ≠ [] := by
    intro hd
    have := congrArg List.length hsplit
    rw [List.length_append, hd] at this
    simp at this
    exact hm this.symm
  have hj := joinSlash_splitSep p
  rw [← hsplit, joinSlash_append_singleton _ _ hlen] at hj
  have hlab : labelOf p = (splitSep '/' p).getLast hne := by
    unfold labelOf
    rw [List.getLast?_eq_getLast _ hne]
    rfl
  unfold parentPathOf
  rw [hlab]
  exact hj.symm

/-- The parent path is strictly shorter, hence different. -/
theorem parentPathOf_ne {p : Str} (hm : (splitSep '/' p).length ≠ 1) :
    parentPathOf p ≠ p := by
  intro he
  have hp := path_eq_parent_slash_label hm
  rw [he] at hp
  have := congrArg List.length hp
  simp at this

/-- One processed item together with the index (into the processing order) of
the node whose `children` list it was appended to — `none` for root-level
placement.  This models the mutable `nodes` dict / nested `children` lists:
`nodes[path] = node` makes the node reachable by path (latest wins), and
appending to `nodes[parent_path]['children']` is recorded as the parent's
index. -/
structure Placed where
  item : BItem
  parent : Option Nat
  deriving DecidableEq

/-- The `nodes` dict lookup: the index of the latest processed item with the
given path (later assignments overwrite earlier ones). -/
def lastIdxWithPath : List Placed → Str → Option Nat
  | [], _ => none
  | q :: qs, t =>
    match lastIdxWithPath qs t with
    | some j => some (j + 1)
    | none => if q.item.path = t then some 0 else none

def dummyPlaced : Placed := ⟨⟨[], [], 0, []⟩, none⟩

/-- The main loop of `build_tree_structure` (src/github_api.py lines
169-196) over the sorted items: single-segment paths go to the root; for
others the parent is looked up in `nodes` by exact path match, falling back
to root when absent; appending to `nodes[parent_path]['children']` raises
`KeyError` (modelled as `none`) when that node is not a folder, because only
folder nodes carry a `children` list (line 181-182). -/
def goBuild : List Placed → List BItem → Option (List Placed)
  | placed, [] => some placed
  | placed, it :: rest =>
    if (splitSep '/' it.path).length = 1 then
      goBuild (placed ++ [⟨it, none⟩]) rest
    else
      match lastIdxWithPath placed (parentPathOf it.path) with
      | none => goBuild (placed ++ [⟨it, none⟩]) rest
      | some j =>
        if (placed.getD j dummyPlaced).item.type = str "folder" then
          goBuild (placed ++ [⟨it, some j⟩]) rest
        else none

/-- The hierarchical node the function returns: `label`, `value` (full
path), `type`, `size` and nested `children`. -/
inductive TNode where
  | node (label value type : Str) (size : Nat) (children : List TNode)

def TNode.value : TNode → Str
  | .node _ v _ _ _ => v

def TNode.label : TNode → Str
  | .node l _ _ _ _ => l

def TNode.children : TNode → List TNode
  | .node _ _ _ _ kids => kids

/-- Reassemble the nested structure from the placement record: processing
indices from `i` upward, the node for index `i` absorbs as children (in
index order, which is append order) the later nodes recorded with parent
`i`; all still-unabsorbed nodes are carried outward.  `buildFrom a 0` is the
root list in processing order. -/
def buildFrom (a : List Placed) : Nat → List (Option Nat × TNode)
  | i =>
    if h : i < a.length then
      let rest := buildFrom a (i + 1)
      let p := a.get ⟨i, h⟩
      (p.parent,
        TNode.node (labelOf p.item.path) p.item.path p.item.type p.item.size
          ((rest.filter (fun x => x.1 = some i)).map (fun x => x.2))) ::
        rest.filter (fun x => ¬(x.1 = some i))
    else []
  termination_by i => a.length - i

/-- `GitHubAPI.build_tree_structure`: filter/map, sort by path, run the
placement loop, reassemble the root-level node list; `none` models the
`KeyError` crash on a non-folder parent. -/
def build_tree_structure (flat : List RawEntry) : Option (List TNode) :=
  let sorted := (toItems flat).insertionSort itemLe
  match goBuild [] sorted with
  | some placed => some ((buildFrom placed 0).map (fun x => x.2))
  | none => none

/-- All `full_path` values in a forest (the flattening of the hierarchy). -/
def flattenNode : TNode → List Str
  | .node _ v _ _ kids =>
    v :: (kids.attach.map (fun x => flattenNode x.1)).flatten
  decreasing_by
    have := List.sizeOf_lt_of_mem x.2
    simp only [TNode.node.sizeOf_spec]
    omega

def flattenForest (ts : List TNode) : List Str := (ts.map flattenNode).flatten

/-- Structural parent-child correctness: every child's full path is the
node's full path, a slash, and the child's label, recursively. -/
def nodeOk : TNode → Bool
  | .node _ v _ _ kids =>
    kids.attach.all (fun x =>
      decide (x.1.value = v ++ '/' :: x.1.label) && nodeOk x.1)
  decreasing_by
    have := List.sizeOf_lt_of_mem x.2
    simp only [TNode.node.sizeOf_spec]
    omega

theorem flattenNode_eq (l v t : Str) (sz : Nat) (kids : List TNode) :
    flattenNode (.node l v t sz kids) = v :: (kids.map flattenNode).flatten := by
  simp only [flattenNode]
  congr 1
  rw [List.attach_map_coe]

theorem nodeOk_eq (l v t : Str) (sz : Nat) (kids : List TNode) :
    nodeOk (.node l v t sz kids) =
      kids.all (fun k => decide (k.value = v ++ '/' :: k.label) && nodeOk k) := by
  simp only [nodeOk]
  rw [Bool.eq_iff_iff]
  simp only [List.all_eq_true, List.mem_attach, true_implies, Subtype.forall]

theorem lastIdxWithPath_some : ∀ {placed : List Placed} {t : Str} {j : Nat},
    lastIdxWithPath placed t = some j →
    ∃ hj : j < placed.length, (placed.get ⟨j, hj⟩).item.path = t := by
  intro placed
  induction placed with
  | nil => intro t j h; simp [lastIdxWithPath] at h
  | cons q qs ih =>
    intro t j h
    rw [lastIdxWithPath] at h
    match hr : lastIdxWithPath qs t with
    | some j0 =>
      rw [hr] at h
      simp only [Option.some.injEq] at h
      subst h
      rcases ih hr with ⟨hj0, hpath⟩
      exact ⟨by simpa using Nat.succ_lt_succ hj0, hpath⟩
    | none =>
      rw [hr] at h
      by_cases hq : q.item.path = t
      · rw [if_pos hq] at h
        simp only [Option.some.injEq] at h
        subst h
        exact ⟨by simp, hq⟩
      · rw [if_neg hq] at h
        exact absurd h (by simp)

theorem lastIdxWithPath_isSome : ∀ {placed : List Placed} {t : Str},
    (∃ q ∈ placed, q.item.path = t) → (lastIdxWithPath placed t).isSome = true := by
  intro placed
  induction placed with
  | nil => intro t h; simp at h
  | cons q qs ih =>
    intro t h
    rw [lastIdxWithPath]
    match hr : lastIdxWithPath qs t with
    | some j0 => simp
    | none =>
      rcases h with ⟨q0, hq0, hpath⟩
      rcases List.mem_cons.mp hq0 with hq0 | hq0
      · subst hq0
        rw [if_pos hpath]
        simp
      · have := ih ⟨q0, hq0, hpath⟩
        rw [hr] at this
        simp at this

/-- Invariant of the placement record: a recorded parent index points
strictly backwards to the node whose path is the child's parent path, and
only multi-segment paths have parents. -/
def ParentsOk (placed : List Placed) : Prop :=
  ∀ (k : Nat) (hk : k < placed.length) (j : Nat),
    (placed.get ⟨k, hk⟩).parent = some j →
    ∃ hj : j < placed.length,
      j < k ∧
      (placed.get ⟨j, hj⟩).item.path = parentPathOf (placed.get ⟨k, hk⟩).item.path ∧
      (splitSep '/' (placed.get ⟨k, hk⟩).item.path).length ≠ 1

/-- Invariant: every multi-segment path got attached to some parent (no
root fallback occurred). -/
def AllAttached (placed : List Placed) : Prop :=
  ∀ (k : Nat) (hk : k < placed.length),
    (splitSep '/' (placed.get ⟨k, hk⟩).item.path).length ≠ 1 →
    (placed.get ⟨k, hk⟩).parent ≠ none

theorem get_append_singleton_left {l : List Placed} {x : Placed} {k : Nat}
    (hk : k < l.length) :
    (l ++ [x]).get ⟨k, by simp; omega⟩ = l.get ⟨k, hk⟩ :=
  List.get_append_left _ _ _

theorem get_append_singleton_right {l : List Placed} {x : Placed} :
    (l ++ [x]).get ⟨l.length, by simp⟩ = x := by
  rw [List.get_eq_getElem]
  exact List.getElem_concat_length l x _ rfl _

theorem parentsOk_extend {placed : List Placed} {x : Placed}
    (hpo : ParentsOk placed)
    (hx : ∀ j, x.parent = some j →
      ∃ hj : j < placed.length,
        (placed.get ⟨j, hj⟩).item.path = parentPathOf x.item.path ∧
        (splitSep '/' x.item.path).length ≠ 1) :
    ParentsOk (placed ++ [x]) := by
  intro k hk j hparent
  have hklen : k < placed.length + 1 := by simpa using hk
  by_cases hkl : k < placed.length
  · rw [get_append_singleton_left hkl] at hparent ⊢
    rcases hpo k hkl j hparent with ⟨hj, hjk, hpath, hm⟩
    refine ⟨by simp; omega, hjk, ?_, hm⟩
    rw [get_append_singleton_left hj]
    exact hpath
  · have hke : k = placed.length := by omega
    subst hke
    have hget : (placed ++ [x]).get ⟨placed.length, hk⟩ = x :=
      get_append_singleton_right
    rw [hget] at hparent ⊢
    rcases hx j hparent with ⟨hj, hpath, hm⟩
    refine ⟨by simp; omega, by omega, ?_, hm⟩
    rw [get_append_singleton_left hj]
    exact hpath

theorem allAttached_extend {placed : List Placed} {x : Placed}
    (haa : AllAttached placed)
    (hx : (splitSep '/' x.item.path).length = 1 ∨ x.parent ≠ none) :
    AllAttached (placed ++ [x]) := by
  intro k hk hm
  by_cases hkl : k < placed.length
  · rw [get_append_singleton_left hkl] at hm ⊢
    exact haa k hkl hm
  · have hklen : k < placed.length + 1 := by simpa using hk
    have hke : k = placed.length := by omega
    subst hke
    have hget : (placed ++ [x]).get ⟨placed.length, hk⟩ = x :=
      get_append_singleton_right
    rw [hget] at hm ⊢
    rcases hx with hx | hx
    · exact absurd hx hm
    · exact hx

theorem goBuild_spec (s : List BItem)
    (hsort : List.Sorted itemLe s)
    (hnodup : (s.map (fun it => it.path)).Nodup)
    (hpar : ∀ it ∈ s, (splitSep '/' it.path).length ≠ 1 →
      ∃ par ∈ s, par.path = parentPathOf it.path ∧ par.type = str "folder") :
    ∀ (rest : List BItem) (placed : List Placed),
      s = placed.map (fun q => q.item) ++ rest →
      ParentsOk placed → AllAttached placed →
      ∃ placed', goBuild placed rest = some placed' ∧
        placed'.map (fun q => q.item) = s ∧
        ParentsOk placed' ∧ AllAttached placed' := by
  intro rest
  induction rest with
  | nil =>
    intro placed hs hpo haa
    exact ⟨placed, rfl, by rw [hs, List.append_nil], hpo, haa⟩
  | cons it rest' ih =>
    intro placed hs hpo haa
    by_cases hm : (splitSep '/' it.path).length = 1
    · simp only [goBuild]
      rw [if_pos hm]
      exact ih (placed ++ [⟨it, none⟩]) (by rw [hs]; simp)
        (parentsOk_extend hpo (fun j hj => by simp at hj))
        (allAttached_extend haa (Or.inl hm))
    · have hit_mem : it ∈ s := by rw [hs]; simp
      rcases hpar it hit_mem hm with ⟨par, hpar_mem, hpp, hpt⟩
      have hpar_pre : par ∈ placed.map (fun q => q.item) := by
        rcases List.mem_append.mp (hs ▸ hpar_mem) with hin | hin
        · exact hin
        · exfalso
          rcases List.mem_cons.mp hin with hin | hin
          · apply parentPathOf_ne hm
            rw [← hpp, hin]
          · have hsuffix : List.Sorted itemLe (it :: rest') := by
              have hsub : (it :: rest') <:+ s := ⟨placed.map (fun q => q.item), hs.symm⟩
              exact hsort.sublist hsub.sublist
            have hrel : itemLe it par := List.rel_of_sorted_cons hsuffix par hin
            rw [itemLe, hpp] at hrel
            have hdecomp := path_eq_parent_slash_label hm
            have hfalse := pathLe_append_cons_false (parentPathOf it.path) '/' (labelOf it.path)
            rw [← hdecomp] at hfalse
            rw [hrel] at hfalse
            exact absurd hfalse (by decide)
      rcases List.mem_map.mp hpar_pre with ⟨q, hq_mem, hq_item⟩
      have hsome : (lastIdxWithPath placed (parentPathOf it.path)).isSome = true :=
        lastIdxWithPath_isSome ⟨q, hq_mem, by rw [hq_item]; exact hpp⟩
      match hidx : lastIdxWithPath placed (parentPathOf it.path) with
      | none => rw [hidx] at hsome; simp at hsome
      | some j =>
        rcases lastIdxWithPath_some hidx with ⟨hj, hjpath⟩
        have hfound_mem_s : (placed.get ⟨j, hj⟩).item ∈ s := by
          rw [hs]
          exact List.mem_append_left _
            (List.mem_map_of_mem _ (List.get_mem placed j hj))
        have heq : (placed.get ⟨j, hj⟩).item = par :=
          List.inj_on_of_nodup_map hnodup hfound_mem_s hpar_mem
            (by show (placed.get ⟨j, hj⟩).item.path = par.path
                rw [hjpath, hpp])
        have htype : (placed.get ⟨j, hj⟩).item.type = str "folder" := by
          rw [heq]; exact hpt
        have hgetD : placed.getD j dummyPlaced = placed.get ⟨j, hj⟩ := by
          rw [List.getD_eq_get?, List.get?_eq_get hj]
          rfl
        simp only [goBuild]
        rw [if_neg hm, hidx]
        dsimp only
        rw [hgetD, if_pos htype]
        refine ih (placed ++ [⟨it, some j⟩]) (by rw [hs]; simp) ?_
          (allAttached_extend haa (Or.inr (by simp)))
        apply parentsOk_extend hpo
        intro j0 hj0
        simp only [Option.some.injEq] at hj0
        subst hj0
        exact ⟨hj, hjpath, hm⟩

theorem buildFrom_perm (a : List Placed) (i : Nat) :
    (((buildFrom a i).map (fun x => flattenNode x.2)).flatten).Perm
      ((a.drop i).map (fun q => q.item.path)) := by
  rw [buildFrom.eq_def]
  by_cases h : i < a.length
  · rw [dif_pos h]
    dsimp only
    rw [List.map_cons, List.flatten_cons, flattenNode_eq, List.map_map]
    simp only [Function.comp_def, decide_not]
    rw [List.cons_append, ← List.flatten_append, ← List.map_append]
    rw [List.drop_eq_getElem_cons h, List.map_cons]
    refine List.Perm.cons _ ?_
    have hpart : ((buildFrom a (i + 1)).filter
          (fun x => decide (x.1 = some i)) ++
        (buildFrom a (i + 1)).filter
          (fun x => !decide (x.1 = some i))).Perm (buildFrom a (i + 1)) :=
      List.filter_append_perm _ _
    exact ((hpart.map _).flatten).trans (buildFrom_perm a (i + 1))
  · rw [dif_neg h]
    rw [List.drop_eq_nil_of_le (by omega)]
    exact List.Perm.refl _
  termination_by a.length - i

theorem buildFrom_nodes (a : List Placed) (hpo : ParentsOk a) (i : Nat) :
    ∀ x ∈ buildFrom a i,
      (∃ (k : Nat) (hk : k < a.length), i ≤ k ∧
        x.1 = (a.get ⟨k, hk⟩).parent ∧
        x.2.value = (a.get ⟨k, hk⟩).item.path ∧
        x.2.label = labelOf (a.get ⟨k, hk⟩).item.path) ∧
      nodeOk x.2 = true := by
  rw [buildFrom.eq_def]
  by_cases h : i < a.length
  · rw [dif_pos h]
    dsimp only
    intro x hx
    rcases List.mem_cons.mp hx with hx | hx
    · subst hx
      constructor
      · exact ⟨i, h, le_refl i, rfl, rfl, rfl⟩
      · rw [nodeOk_eq, List.all_eq_true]
        intro t ht_mem
        rcases List.mem_map.mp ht_mem with ⟨y, hy_mem, hy_eq⟩
        have hy_filter := List.mem_filter.mp hy_mem
        have hy_rest := hy_filter.1
        have hy_parent : y.1 = some i := by simpa using hy_filter.2
        rcases buildFrom_nodes a hpo (i + 1) y hy_rest with
          ⟨⟨k0, hk0, hik0, hpar_eq, hval, hlab⟩, hok⟩
        have hpar0 : (a.get ⟨k0, hk0⟩).parent = some i := by
          rw [← hpar_eq]; exact hy_parent
        rcases hpo k0 hk0 i hpar0 with ⟨hi_lt, _, hpath_eq, hm⟩
        subst hy_eq
        rw [Bool.and_eq_true]
        refine ⟨?_, hok⟩
        rw [decide_eq_true_iff]
        show y.2.value = (a.get ⟨i, h⟩).item.path ++ '/' :: y.2.label
        rw [hval, hlab]
        have hpath_eq2 : (a.get ⟨i, h⟩).item.path =
            parentPathOf (a.get ⟨k0, hk0⟩).item.path := hpath_eq
        rw [hpath_eq2]
        exact path_eq_parent_slash_label hm
    · have hx_rest : x ∈ buildFrom a (i + 1) := (List.mem_filter.mp hx).1
      rcases buildFrom_nodes a hpo (i + 1) x hx_rest with
        ⟨⟨k0, hk0, hik0, hrest⟩, hok⟩
      exact ⟨⟨k0, hk0, by omega, hrest⟩, hok⟩
  · rw [dif_neg h]
    intro x hx
    simp at hx
  termination_by a.length - i

theorem buildFrom_toplevel_parent (a : List Placed) (hpo : ParentsOk a) (i : Nat) :
    ∀ x ∈ buildFrom a i, x.1 = none ∨ ∃ j, x.1 = some j ∧ j < i := by
  rw [buildFrom.eq_def]
  by_cases h : i < a.length
  · rw [dif_pos h]
    dsimp only
    intro x hx
    rcases List.mem_cons.mp hx with hx | hx
    · subst hx
      match hp : (a.get ⟨i, h⟩).parent with
      | none => exact Or.inl rfl
      | some j =>
        rcases hpo i h j hp with ⟨_, hji, _, _⟩
        exact Or.inr ⟨j, rfl, hji⟩
    · have hx_rest : x ∈ buildFrom a (i + 1) := (List.mem_filter.mp hx).1
      have hx_ne : ¬(x.1 = some i) := by
        have := (List.mem_filter.mp hx).2
        simpa using this
      rcases buildFrom_toplevel_parent a hpo (i + 1) x hx_rest with hnone | ⟨j, hj, hji⟩
      · exact Or.inl hnone
      · refine Or.inr ⟨j, hj, ?_⟩
        have : j ≠ i := by
          intro he
          subst he
          exact hx_ne hj
        omega
  · rw [dif_neg h]
    intro x hx
    simp at hx
  termination_by a.length - i

/-- C7 (counterexample): the flat tree `[{path: "a", type: blob},
{path: "a/b", type: blob}]` satisfies the claim's hypothesis — every entry's
parent directory path is present as an entry — yet `build_tree_structure`
raises (`KeyError`): the parent node `a` is a file, so it has no `children`
key to append to; no hierarchy is returned, and no round-trip holds. -/
theorem c7_counterexample_blob_parent_keyerror :
    (∀ e ∈ ([⟨str "a", str "blob", 0, []⟩,
             ⟨str "a/b", str "blob", 0, []⟩] : List RawEntry),
      (splitSep '/' e.path).length ≠ 1 →
        ∃ e2 ∈ ([⟨str "a", str "blob", 0, []⟩,
                 ⟨str "a/b", str "blob", 0, []⟩] : List RawEntry),
          e2.path = parentPathOf e.path) ∧
    build_tree_structure
      [⟨str "a", str "blob", 0, []⟩, ⟨str "a/b", str "blob", 0, []⟩] = none := by
  constructor
  · decide
  · rfl

/-- C7 (amended): for a flat tree of file/directory entries with distinct
paths in which every multi-segment entry's parent directory path is present
as a directory (`tree`) entry, `build_tree_structure` succeeds, flattening
the produced hierarchy yields exactly the set of input paths, every node's
children carry the node's path plus slash plus their label (each node is
attached under its immediate parent), and every root-level node has a
single-segment path (no orphan fallback fires). -/
theorem c7_build_hierarchy_round_trip (flat : List RawEntry)
    (htypes : ∀ e ∈ flat, e.type = str "blob" ∨ e.type = str "tree")
    (hnodup : (flat.map (fun e => e.path)).Nodup)
    (hparents : ∀ e ∈ flat, (splitSep '/' e.path).length ≠ 1 →
      ∃ par ∈ flat, par.path = parentPathOf e.path ∧ par.type = str "tree") :
    ∃ forest, build_tree_structure flat = some forest ∧
      (∀ p, p ∈ flattenForest forest ↔ p ∈ flat.map (fun e => e.path)) ∧
      (∀ t ∈ forest, nodeOk t = true) ∧
      (∀ t ∈ forest, (splitSep '/' t.value).length = 1) := by
  have hfilter : flat.filter
      (fun e => e.type = str "blob" || e.type = str "tree") = flat := by
    rw [List.filter_eq_self]
    intro e he
    rcases htypes e he with h | h <;> simp [h]
  have hitems_paths : (toItems flat).map (fun it => it.path) =
      flat.map (fun e => e.path) := by
    rw [toItems, hfilter, List.map_map]
    rfl
  have hperm : ((toItems flat).insertionSort itemLe).Perm (toItems flat) :=
    List.perm_insertionSort itemLe (toItems flat)
  have hsort : List.Sorted itemLe ((toItems flat).insertionSort itemLe) :=
    List.sorted_insertionSort itemLe (toItems flat)
  have hnodup2 : (((toItems flat).insertionSort itemLe).map
      (fun it => it.path)).Nodup :=
    (hperm.map (fun it => it.path)).nodup_iff.mpr (hitems_paths ▸ hnodup)
  have hmem_items : ∀ it : BItem, it ∈ toItems flat ↔
      ∃ e ∈ flat, it = ⟨e.path,
        if e.type = str "tree" then str "folder" else str "file",
        e.size, e.sha⟩ := by
    intro it
    rw [toItems, hfilter, List.mem_map]
    constructor
    · rintro ⟨e, he, rfl⟩
      exact ⟨e, he, rfl⟩
    · rintro ⟨e, he, rfl⟩
      exact ⟨e, he, rfl⟩
  have hpar2 : ∀ it ∈ (toItems flat).insertionSort itemLe,
      (splitSep '/' it.path).length ≠ 1 →
      ∃ par ∈ (toItems flat).insertionSort itemLe,
        par.path = parentPathOf it.path ∧ par.type = str "folder" := by
    intro it hit hm
    rw [List.mem_insertionSort] at hit
    rcases (hmem_items it).mp hit with ⟨e, he, rfl⟩
    rcases hparents e he hm with ⟨par, hpar_mem, hpp, hpt⟩
    refine ⟨⟨par.path,
      if par.type = str "tree" then str "folder" else str "file",
      par.size, par.sha⟩, ?_, hpp, by rw [hpt]; rfl⟩
    rw [List.mem_insertionSort]
    exact (hmem_items _).mpr ⟨par, hpar_mem, rfl⟩
  have hpo0 : ParentsOk [] := by
    intro k hk
    simp at hk
  have haa0 : AllAttached [] := by
    intro k hk
    simp at hk
  rcases goBuild_spec ((toItems flat).insertionSort itemLe) hsort hnodup2 hpar2
      ((toItems flat).insertionSort itemLe) [] rfl hpo0 haa0 with
    ⟨placed, hgeq, hmap, hpo, haa⟩
  refine ⟨(buildFrom placed 0).map (fun x => x.2), ?_, ?_, ?_, ?_⟩
  · rw [build_tree_structure]
    rw [hgeq]
  · intro p
    have hflat_eq : flattenForest ((buildFrom placed 0).map (fun x => x.2)) =
        ((buildFrom placed 0).map (fun x => flattenNode x.2)).flatten := by
      rw [flattenForest, List.map_map]
      rfl
    rw [hflat_eq]
    have hperm2 := buildFrom_perm placed 0
    rw [List.drop_zero] at hperm2
    have hpaths : (placed.map (fun q => q.item.path)).Perm
        (flat.map (fun e => e.path)) := by
      have h1 : placed.map (fun q => q.item.path) =
          ((toItems flat).insertionSort itemLe).map (fun it => it.path) := by
        rw [← hmap, List.map_map]
        rfl
      rw [h1, ← hitems_paths]
      exact hperm.map _
    exact (hperm2.trans hpaths).mem_iff
  · intro t ht
    rcases List.mem_map.mp ht with ⟨x, hx, rfl⟩
    exact (buildFrom_nodes placed hpo 0 x hx).2
  · intro t ht
    rcases List.mem_map.mp ht with ⟨x, hx, rfl⟩
    rcases buildFrom_toplevel_parent placed hpo 0 x hx with hnone | ⟨j, _, hj0⟩
    · rcases (buildFrom_nodes placed hpo 0 x hx).1 with ⟨k, hk, _, hpar_eq, hval, _⟩
      rw [hval]
      by_contra hm
      apply haa k hk hm
      rw [← hpar_eq, hnone]
    · omega

/-- Witness for C7 at the concrete two-entry tree `src` (directory) and
`src/a.py` (file). -/
theorem c7_build_hierarchy_round_trip_witness :
    ∃ forest,
      build_tree_structure
        [⟨str "src", str "tree", 0, []⟩,
         ⟨str "src/a.py", str "blob", 0, []⟩] = some forest ∧
      (∀ p, p ∈ flattenForest forest ↔
        p ∈ ([⟨str "src", str "tree", 0, []⟩,
              ⟨str "src/a.py", str "blob", 0, []⟩] : List RawEntry).map
            (fun e => e.path)) ∧
      (∀ t ∈ forest, nodeOk t = true) ∧
      (∀ t ∈ forest, (splitSep '/' t.value).length = 1) :=
  c7_build_hierarchy_round_trip
    [⟨str "src", str "tree", 0, []⟩, ⟨str "src/a.py", str "blob", 0, []⟩]
    (by decide) (by decide) (by decide)
